import Mathlib

/-!
Verification development for the d3rs domain-to-coordinate scaling engine.

The Rust source performs its working arithmetic in `f64`.  We model an `f64`
value as either an exact rational number or one of the IEEE special values
(`+inf`, `-inf`, `NaN`); finite arithmetic is idealised as exact rational
arithmetic, while the special values propagate as in IEEE 754 (`0/0 = NaN`,
`x + NaN = NaN`, ...).  All domain values in scope stay inside the library's
"safe" bounds (|v| < 2^53), where the integer <-> f64 conversions of the
source are lossless, so the idealisation agrees with the source on every
conversion; the sign of floating zero is not modelled (the only place a
signed zero arises, `ratio = -0.0` for a degenerate domain, feeds into
`0/0 = NaN` or `abs`, where the sign is irrelevant).

`Linear<DT>` is generated by a macro for several integer and float domain
types; we embed the integer instantiation (domain values in `ℤ`) with the
`i64` capability constants `MIN`/`MAX` and the `i64` saturating casts, which
is the widest integer instantiation.
-/

/-- Rust `f64::round`: round half away from zero. -/
def rustRound (q : ℚ) : ℤ := if 0 ≤ q then ⌊q + 1/2⌋ else -⌊-q + 1/2⌋

/-- Rust `as` float-to-integer conversion before saturation: truncate toward zero. -/
def rustTrunc (q : ℚ) : ℤ := if 0 ≤ q then ⌊q⌋ else -⌊-q⌋

/-- A model of `f64`: an exact rational, an infinity, or NaN. -/
inductive F : Type where
  | fin : ℚ → F
  | pinf : F
  | ninf : F
  | nan : F
deriving DecidableEq, Repr

namespace F

def add : F → F → F
  | fin a, fin b => fin (a + b)
  | fin _, pinf => pinf
  | pinf, fin _ => pinf
  | pinf, pinf => pinf
  | fin _, ninf => ninf
  | ninf, fin _ => ninf
  | ninf, ninf => ninf
  | pinf, ninf => nan
  | ninf, pinf => nan
  | nan, _ => nan
  | _, nan => nan

def mul : F → F → F
  | fin a, fin b => fin (a * b)
  | fin a, pinf => if a = 0 then nan else if 0 < a then pinf else ninf
  | fin a, ninf => if a = 0 then nan else if 0 < a then ninf else pinf
  | pinf, fin b => if b = 0 then nan else if 0 < b then pinf else ninf
  | ninf, fin b => if b = 0 then nan else if 0 < b then ninf else pinf
  | pinf, pinf => pinf
  | ninf, ninf => pinf
  | pinf, ninf => ninf
  | ninf, pinf => ninf
  | nan, _ => nan
  | _, nan => nan

def div : F → F → F
  | fin a, fin b =>
      if b = 0 then (if a = 0 then nan else if 0 < a then pinf else ninf)
      else fin (a / b)
  | fin _, pinf => fin 0
  | fin _, ninf => fin 0
  | pinf, fin b => if 0 ≤ b then pinf else ninf
  | ninf, fin b => if 0 ≤ b then ninf else pinf
  | pinf, pinf => nan
  | pinf, ninf => nan
  | ninf, pinf => nan
  | ninf, ninf => nan
  | nan, _ => nan
  | _, nan => nan

instance : Add F := ⟨F.add⟩
instance : Mul F := ⟨F.mul⟩
instance : Div F := ⟨F.div⟩

/-- Model of `f64::abs`. -/
def abs : F → F
  | fin a => fin |a|
  | pinf => pinf
  | ninf => pinf
  | nan => nan

/-- Model of `f64::round` lifted to the model (round of NaN and of infinities is the input). -/
def round : F → F
  | fin a => fin ((rustRound a : ℤ) : ℚ)
  | pinf => pinf
  | ninf => ninf
  | nan => nan

/-- Model of `f64::is_infinite`. -/
def isInfinite : F → Bool
  | pinf => true
  | ninf => true
  | _ => false

def usizeMax : ℕ := 18446744073709551615
def i64Max : ℤ := 9223372036854775807
def i64Min : ℤ := -9223372036854775808

/-- Rust `as usize` on an `f64`: truncate toward zero, saturate to `[0, usize::MAX]`,
NaN maps to 0. -/
def castUsize : F → ℕ
  | fin a => if a < 0 then 0 else min (rustTrunc a).toNat usizeMax
  | pinf => usizeMax
  | ninf => 0
  | nan => 0

/-- Rust `as i64` on an `f64`: truncate toward zero, saturate to the `i64` range,
NaN maps to 0. -/
def castI64 : F → ℤ
  | fin a => max i64Min (min i64Max (rustTrunc a))
  | pinf => i64Max
  | ninf => i64Min
  | nan => 0

/-- The rational carried by a finite model value (junk 0 on specials). -/
def q : F → ℚ
  | fin a => a
  | _ => 0


end F

/-! ## `src/scales/api.rs` -/

/-- The scale construction error type (`ScaleError` in `api.rs`). -/
inductive ScaleError : Type where
  | DimensionTooSmall : ScaleError
  | OutOfRange : String → ScaleError
  | RangeExceedsMaximum : String → ScaleError
deriving DecidableEq, Repr

def ScaleError.isOutOfRange : ScaleError → Bool
  | .OutOfRange _ => true
  | _ => false

def ScaleError.isRangeExceedsMaximum : ScaleError → Bool
  | .RangeExceedsMaximum _ => true
  | _ => false

/-! ## `src/scales/linear.rs`, integer instantiation (i64 capability constants) -/

/-- The `Linear` scale configuration.  `ratio` and `domain_range` are the
stored `f64` fields. -/
structure Linear : Type where
  start : ℤ
  dimension : ℕ
  min : ℤ
  max : ℤ
  ratio : F
  domain_range : F
deriving DecidableEq, Repr

namespace Linear

/-- Constant `ConvertToFloat::MIN` for `i64`: `-9_007_199_254_740_991`. -/
def MIN : ℤ := -9007199254740991

/-- Constant `ConvertToFloat::MAX` for `i64`: `9_007_199_254_740_990`. -/
def MAX : ℤ := 9007199254740990

/-- Constructor `Linear::try_new(start, end, dimension)`.  The tuple destructuring
`(min, max, sign) = if start < end { (start, end, 1.0) } else { (end, start, -1.0) }`
is rendered as three `if start < e` lets. -/
def try_new (start e : ℤ) (dimension : ℕ) : Except ScaleError Linear :=
  if dimension < 5 then .error .DimensionTooSmall
  else
    let mn : ℤ := if start < e then start else e
    let mx : ℤ := if start < e then e else start
    let sign : ℚ := if start < e then 1 else -1
    if mn < MIN then
      .error (.OutOfRange
        s!"minimum value {mn} is out of range; must be larger than {MIN}")
    else if MAX < mx then
      .error (.OutOfRange
        s!"maximum value {mx} is out of range; must be less than {MAX}")
    else
      let dr : ℤ := mx - mn
      if MAX < dr then
        .error (.OutOfRange
          s!"Difference between {mn} and {mx} is out of range; must be less than {MAX}")
      else
        let domain_range : F := F.fin (dr : ℚ)
        let ratio : F := domain_range / F.fin ((dimension - 1 : ℕ) : ℚ) * F.fin sign
        if (F.isInfinite ratio) = true then .error .DimensionTooSmall
        else .ok ⟨start, dimension, mn, mx, ratio, domain_range⟩

/-- Query `DomainScale::domain_to_coordinate` for an integer domain type: the in-range
check, the unsigned distance from `start`, then
`f64::round((diff / domain_range) * (dimension - 1) as f64) as usize`. -/
def domain_to_coordinate (s : Linear) (value : ℤ) : Option ℕ :=
  if s.min ≤ value ∧ value ≤ s.max then
    let diff : ℤ := if value < s.start then s.start - value else value - s.start
    some (F.castUsize (F.round
      (F.fin (diff : ℚ) / s.domain_range * F.fin ((s.dimension - 1 : ℕ) : ℚ))))
  else none

/-- Query `DomainScale::coordinate_to_domain`: `start + (ratio * coordinate as f64) as i64`
when `coordinate < dimension`. -/
def coordinate_to_domain (s : Linear) (coordinate : ℕ) : Option ℤ :=
  if coordinate < s.dimension then
    some (s.start + F.castI64 (s.ratio * F.fin (coordinate : ℚ)))
  else none

end Linear

/-- The lazy sequence state (`DomainIter`).  The `from_float` function pointer of
the source is fixed to the `i64` conversion `castI64`. -/
structure DomainIter : Type where
  current : F
  domain_step : F
  increment : F
  dimension : F
  dimension_end : ℕ
deriving DecidableEq, Repr

namespace DomainIter

/-- The state update performed after each emission
(`self.dimension += self.increment; self.current += self.domain_step`). -/
def advance (it : DomainIter) : DomainIter :=
  { it with dimension := it.dimension + it.increment, current := it.current + it.domain_step }

/-- Step `Iterator::next` for `DomainIter`: round the coordinate accumulator; if the
rounded coordinate is still below `dimension_end`, emit and advance. -/
def next (it : DomainIter) : Option ((ℤ × ℕ) × DomainIter) :=
  let dimension := F.castUsize (F.round it.dimension)
  if dimension < it.dimension_end then
    some ((F.castI64 it.current, dimension), advance it)
  else none

/-- Collect at most `fuel` emissions of the iterator. -/
def takeIter : ℕ → DomainIter → List (ℤ × ℕ)
  | 0, _ => []
  | fuel + 1, it =>
    match next it with
    | none => []
    | some (x, it2) => x :: takeIter fuel it2

end DomainIter

namespace Linear

/-- Helper `Linear::create_iter(step)`. -/
def create_iter (s : Linear) (step : F) : DomainIter :=
  let increment := F.abs (step / s.ratio)
  { current := F.fin ((s.start : ℤ) : ℚ)
    domain_step := increment * s.ratio
    increment := increment
    dimension := F.fin 0
    dimension_end := s.dimension }

/-- Enumeration `IterableScale::iter`: native resolution, `create_iter(self.ratio)`. -/
def iter (s : Linear) : DomainIter := s.create_iter s.ratio

/-- Enumeration `IterableScale::intervals(step)`: `create_iter(to_float(step))`. -/
def intervals (s : Linear) (step : ℤ) : DomainIter := s.create_iter (F.fin (step : ℚ))

end Linear

/-! ## `src/continuous_mapper.rs` -/

/-- The step generator (`ScaledSteps<DOMAIN>`).  An emitted `ScaledStep` is
rendered as the pair `(dimension, value)`. -/
structure ScaledSteps (D : Type) : Type where
  dimension : ℕ
  values : List D
  dimension_step : ℕ
  dimension_start : ℕ
deriving DecidableEq, Repr

/-- The enumeration cursor (`ScaledStepsIter`): the running coordinate, the
coordinate spacing, and the remaining domain values. -/
structure ScaledStepsIter (D : Type) : Type where
  dimension : ℕ
  dimension_step : ℕ
  rest : List D
deriving DecidableEq, Repr

namespace ScaledStepsIter

/-- Step `Iterator::next`: emit `(dimension, value)` and advance the coordinate by
`dimension_step`. -/
def next {D : Type} (it : ScaledStepsIter D) : Option ((ℕ × D) × ScaledStepsIter D) :=
  match it.rest with
  | [] => none
  | dom :: rest =>
      some ((it.dimension, dom), ⟨it.dimension + it.dimension_step, it.dimension_step, rest⟩)

/-- Helper for `run`: emit the remaining list from coordinate `d` with spacing `st`. -/
def runAux {D : Type} (st : ℕ) : ℕ → List D → List (ℕ × D)
  | _, [] => []
  | d, a :: rest => (d, a) :: runAux st (d + st) rest

/-- The full (finite) emission sequence of a cursor. -/
def run {D : Type} (it : ScaledStepsIter D) : List (ℕ × D) :=
  runAux it.dimension_step it.dimension it.rest


end ScaledStepsIter

namespace ScaledSteps

/-- Constructor `ScaledSteps::new(dimension)`. -/
def new {D : Type} (dimension : ℕ) : ScaledSteps D :=
  ⟨dimension, [], 1, 0⟩

/-- Enumeration `ScaledSteps::iter`. -/
def iter {D : Type} (s : ScaledSteps D) : ScaledStepsIter D :=
  ⟨s.dimension_start, s.dimension_step, s.values⟩

/-- Helper `assign_steps(count, start_value, step_value)`: the source folds over
`0..count` pushing `current_value` and then doing `current_value += step_value`,
so the i-th pushed value is `start_value + step_value * i`. -/
def assign_steps (s : ScaledSteps ℤ) (count : ℤ) (start_value step_value : ℤ) :
    ScaledSteps ℤ :=
  { s with values := (List.range count.toNat).map (fun i => start_value + step_value * i) }

/-- Rust `as i32` on an `i128`: wrap modulo `2^32`. -/
def wrap32 (z : ℤ) : ℤ := (z + 2147483648) % 4294967296 - 2147483648

/-- Constructor `ScaledSteps::discrete_range(start..end)` for an integer domain.  Rust `/`
and `%` on `i128` are truncated division (`Int.tdiv` / `Int.tmod`).  The three
`none` results model panics of the source: `dimension / value_distance_abs`
with a zero distance, `value_distance % dimension` with dimension 0, and
`value_distance % domain_step_i128` when the wrapped step is 0. -/
def discrete_range (s : ScaledSteps ℤ) (rstart rend : ℤ) : Option (ScaledSteps ℤ) :=
  let value_distance : ℤ := rend - rstart
  let sign : ℤ := if rend < rstart then -1 else 1
  let value_distance_abs : ℤ := |value_distance|
  let dimension : ℤ := (s.dimension : ℤ)
  let steps : Option (ℤ × ℤ) :=
    if value_distance_abs < dimension then
      if value_distance_abs = 0 then none
      else some (dimension.tdiv value_distance_abs, sign)
    else
      if dimension = 0 then none
      else some (1, wrap32 (value_distance.tdiv dimension
          + if value_distance.tmod dimension ≠ 0 then sign else 0))
  match steps with
  | none => none
  | some (dimension_step, domain_step) =>
      if domain_step = 0 then none
      else
        let t := { s with dimension_step := dimension_step.toNat, dimension_start := 0 }
        let count := value_distance.tdiv domain_step
          + if value_distance.tmod domain_step ≠ 0 then 1 else 0
        some (assign_steps t count rstart domain_step)

/-- Constructor `ScaledSteps::ordered(steps)`: keep the input labels whose index is below
`dimension - 1`, then `dimension_step = dimension / (count + 1)` and
`dimension_start = dimension_step`.  The `none` result models the debug-mode
usize underflow of `self.dimension - 1` when `dimension = 0`. -/
def ordered {D : Type} (s : ScaledSteps D) (steps : List D) : Option (ScaledSteps D) :=
  if s.dimension = 0 then none
  else
    let max_index := s.dimension - 1
    let values := steps.enum.filterMap (fun p => if p.1 < max_index then some p.2 else none)
    some { s with values := values
                  dimension_step := s.dimension / (values.length + 1)
                  dimension_start := s.dimension / (values.length + 1) }

end ScaledSteps

/-! ## `src/scales/band.rs` (construction only, needed for the no-panic claim) -/

/-- The `Band` scale configuration. -/
structure Band (D : Type) : Type where
  dimension : ℕ
  domain : List D
  padding_inner : ℚ
  padding_outer : ℚ
  align : ℚ
deriving DecidableEq, Repr

/-- Helper `calculate_dimension(n, dimension, padding_inner)`.  The `none` result
models the debug-mode usize underflow of `n - 1` when the domain is empty. -/
def calculate_dimension (n dimension : ℕ) (padding_inner : ℚ) : Option ℕ :=
  if n = 0 then none
  else some (max dimension
    (F.castUsize (F.round (F.fin ((n - 1 : ℕ) : ℚ) / F.fin padding_inner))))

namespace Band

/-- Constructor `Band::new(domain, dimension)`: default paddings 0.1 / 0.05, align 0.5. -/
def new {D : Type} (domain : List D) (dimension : ℕ) : Option (Band D) :=
  (calculate_dimension domain.length dimension (1/10)).map
    (fun d => ⟨d, domain, 1/10, 1/20, 1/2⟩)

end Band

/-- The error produced by `Linear::try_new`, when there is one. -/
def tryNewError (start e : ℤ) (dim : ℕ) : Option ScaleError :=
  match Linear.try_new start e dim with
  | .error err => some err
  | .ok _ => none

/-!
## Theorems

First a layer of small reduction and arithmetic lemmas about the `f64` model,
then the inversion lemma for `Linear::try_new`, then the claim theorems.
-/

theorem F.fin_add_fin (a b : ℚ) : F.fin a + F.fin b = F.fin (a + b) := rfl

theorem F.fin_mul_fin (a b : ℚ) : F.fin a * F.fin b = F.fin (a * b) := rfl

theorem F.fin_div_fin {b : ℚ} (a : ℚ) (hb : b ≠ 0) : F.fin a / F.fin b = F.fin (a / b) := by
  show F.div (F.fin a) (F.fin b) = _
  simp [F.div, hb]

theorem F.fin_div_fin_zero_zero : F.fin 0 / F.fin 0 = F.nan := by
  show F.div (F.fin 0) (F.fin 0) = _
  simp [F.div]

theorem F.abs_fin (a : ℚ) : F.abs (F.fin a) = F.fin |a| := rfl

theorem F.round_fin (a : ℚ) : F.round (F.fin a) = F.fin ((rustRound a : ℤ) : ℚ) := rfl

theorem F.q_fin (a : ℚ) : F.q (F.fin a) = a := rfl

theorem F.isInfinite_fin (a : ℚ) : F.isInfinite (F.fin a) = false := rfl

theorem ScaledStepsIter.run_eq_next {D : Type} (it : ScaledStepsIter D) :
    ScaledStepsIter.run it = match ScaledStepsIter.next it with
      | none => []
      | some (x, it2) => x :: ScaledStepsIter.run it2 := by
  rcases it with ⟨d, st, _ | ⟨a, rest⟩⟩ <;> rfl

/-! ### Rounding and truncation arithmetic -/

theorem rustRound_intCast (n : ℤ) : rustRound (n : ℚ) = n := by
  unfold rustRound
  rcases le_or_lt 0 (n : ℚ) with h | h
  · rw [if_pos h, add_comm, Int.floor_add_int]
    have : ⌊(1/2 : ℚ)⌋ = 0 := by
      rw [Int.floor_eq_zero_iff]
      constructor <;> norm_num
    omega
  · rw [if_neg (not_le.mpr h)]
    have : -(n : ℚ) = ((-n : ℤ) : ℚ) := by push_cast; ring
    rw [this, add_comm, Int.floor_add_int]
    have : ⌊(1/2 : ℚ)⌋ = 0 := by
      rw [Int.floor_eq_zero_iff]
      constructor <;> norm_num
    omega

theorem rustRound_natCast (n : ℕ) : rustRound (n : ℚ) = n := by
  have : ((n : ℕ) : ℚ) = ((n : ℤ) : ℚ) := by push_cast; ring
  rw [this, rustRound_intCast]

theorem rustRound_nonneg {x : ℚ} (h : 0 ≤ x) : 0 ≤ rustRound x := by
  unfold rustRound
  rw [if_pos h]
  have : (0 : ℚ) ≤ x + 1/2 := by linarith
  exact Int.le_floor.mpr (by exact_mod_cast this)

theorem rustRound_le_intCast {x : ℚ} {K : ℤ} (h0 : 0 ≤ x) (h : x ≤ (K : ℚ)) :
    rustRound x ≤ K := by
  unfold rustRound
  rw [if_pos h0]
  have h2 : ⌊x + 1/2⌋ ≤ ⌊(K : ℚ) + 1/2⌋ := Int.floor_le_floor (by linarith)
  have h3 : ⌊(K : ℚ) + 1/2⌋ = K := by
    rw [add_comm, Int.floor_add_int]
    have : ⌊(1/2 : ℚ)⌋ = 0 := by
      rw [Int.floor_eq_zero_iff]
      constructor <;> norm_num
    omega
  omega

theorem abs_rustRound_sub (x : ℚ) : |(rustRound x : ℚ) - x| ≤ 1/2 := by
  unfold rustRound
  rcases le_or_lt 0 x with h | h
  · rw [if_pos h, abs_le]
    have h1 : ((⌊x + 1/2⌋ : ℤ) : ℚ) ≤ x + 1/2 := Int.floor_le _
    have h2 : x + 1/2 < ((⌊x + 1/2⌋ : ℤ) : ℚ) + 1 := Int.lt_floor_add_one _
    constructor <;> linarith
  · rw [if_neg (not_le.mpr h), abs_le]
    have h1 : ((⌊-x + 1/2⌋ : ℤ) : ℚ) ≤ -x + 1/2 := Int.floor_le _
    have h2 : -x + 1/2 < ((⌊-x + 1/2⌋ : ℤ) : ℚ) + 1 := Int.lt_floor_add_one _
    push_cast
    constructor <;> linarith

theorem rustTrunc_intCast (n : ℤ) : rustTrunc (n : ℚ) = n := by
  unfold rustTrunc
  rcases le_or_lt 0 (n : ℚ) with h | h
  · rw [if_pos h, Int.floor_intCast]
  · rw [if_neg (not_le.mpr h)]
    have : -(n : ℚ) = ((-n : ℤ) : ℚ) := by push_cast; ring
    rw [this, Int.floor_intCast]
    omega

theorem rustTrunc_nonneg {x : ℚ} (h : 0 ≤ x) : 0 ≤ rustTrunc x := by
  unfold rustTrunc
  rw [if_pos h]
  exact Int.le_floor.mpr (by exact_mod_cast h)

theorem rustTrunc_le {x : ℚ} (h : 0 ≤ x) : (rustTrunc x : ℚ) ≤ x := by
  unfold rustTrunc
  rw [if_pos h]
  exact Int.floor_le _

theorem lt_rustTrunc_add_one {x : ℚ} (h : 0 ≤ x) : x - 1 < (rustTrunc x : ℚ) := by
  unfold rustTrunc
  rw [if_pos h]
  have := Int.lt_floor_add_one x
  linarith

theorem rustTrunc_neg (x : ℚ) : rustTrunc (-x) = -rustTrunc x := by
  unfold rustTrunc
  rcases lt_trichotomy x 0 with h | h | h
  · rw [if_pos (by linarith : (0:ℚ) ≤ -x), if_neg (not_le.mpr h)]
    omega
  · subst h; norm_num
  · rw [if_neg (by simpa using not_le.mpr h), if_pos h.le, neg_neg]

theorem abs_rustTrunc_le (x : ℚ) : |(rustTrunc x : ℚ)| ≤ |x| := by
  rcases le_or_lt 0 x with h | h
  · have h1 := rustTrunc_nonneg h
    have h2 := rustTrunc_le h
    rw [abs_of_nonneg (by exact_mod_cast h1 : (0:ℚ) ≤ (rustTrunc x : ℚ)), abs_of_nonneg h]
    exact h2
  · have hx : (0 : ℚ) ≤ -x := by linarith
    have h1 := rustTrunc_nonneg hx
    have h2 := rustTrunc_le hx
    have h3 : rustTrunc x = -rustTrunc (-x) := by rw [← rustTrunc_neg, neg_neg]
    rw [h3, abs_of_neg h]
    push_cast
    rw [abs_neg, abs_of_nonneg (by exact_mod_cast h1 : (0:ℚ) ≤ (rustTrunc (-x) : ℚ))]
    exact h2

/-! ### Cast lemmas -/

theorem castUsize_intCast {n : ℤ} (h0 : 0 ≤ n) (h : n ≤ (F.usizeMax : ℤ)) :
    F.castUsize (F.fin (n : ℚ)) = n.toNat := by
  show (if ((n : ℚ)) < 0 then 0 else min (rustTrunc (n : ℚ)).toNat F.usizeMax) = n.toNat
  rw [if_neg (by exact_mod_cast not_lt.mpr h0), rustTrunc_intCast]
  exact min_eq_left (by omega)

theorem castUsize_fin_le_toNat (n : ℤ) : F.castUsize (F.fin (n : ℚ)) ≤ n.toNat := by
  show (if ((n : ℚ)) < 0 then 0 else min (rustTrunc (n : ℚ)).toNat F.usizeMax) ≤ n.toNat
  split
  · omega
  · rw [rustTrunc_intCast]; omega

theorem castI64_eq {x : ℚ} (h : |x| ≤ (Linear.MAX : ℚ)) :
    F.castI64 (F.fin x) = rustTrunc x := by
  show max F.i64Min (min F.i64Max (rustTrunc x)) = rustTrunc x
  have h1 : |(rustTrunc x : ℚ)| ≤ (Linear.MAX : ℚ) := le_trans (abs_rustTrunc_le x) h
  have h2 : |rustTrunc x| ≤ Linear.MAX := by exact_mod_cast h1
  rw [abs_le] at h2
  have hmin : Linear.MAX < F.i64Max := by norm_num [Linear.MAX, F.i64Max]
  have hmax : F.i64Min < -Linear.MAX := by norm_num [Linear.MAX, F.i64Min]
  rw [min_eq_right (by omega), max_eq_right (by omega)]

/-- Inversion for a successful `Linear::try_new`: the stored configuration in
terms of the construction inputs, plus the validated bounds. -/
theorem try_new_ok {start e : ℤ} {dim : ℕ} {s : Linear}
    (h : Linear.try_new start e dim = .ok s) :
    5 ≤ dim ∧ s.start = start ∧ s.dimension = dim ∧
    s.min = (if start < e then start else e) ∧
    s.max = (if start < e then e else start) ∧
    Linear.MIN ≤ s.min ∧ s.max ≤ Linear.MAX ∧ s.max - s.min ≤ Linear.MAX ∧
    s.domain_range = F.fin ((s.max - s.min : ℤ) : ℚ) ∧
    s.ratio = F.fin (((s.max - s.min : ℤ) : ℚ) / ((dim - 1 : ℕ) : ℚ) *
      (if start < e then 1 else -1)) := by
  by_cases h5 : dim < 5
  · rw [Linear.try_new, if_pos h5] at h; cases h
  rw [Linear.try_new, if_neg h5] at h
  dsimp only at h
  by_cases hmn : (if start < e then start else e) < Linear.MIN
  · rw [if_pos hmn] at h; cases h
  rw [if_neg hmn] at h
  by_cases hmx : Linear.MAX < (if start < e then e else start)
  · rw [if_pos hmx] at h; cases h
  rw [if_neg hmx] at h
  by_cases hdr : Linear.MAX <
      (if start < e then e else start) - (if start < e then start else e)
  · rw [if_pos hdr] at h; cases h
  rw [if_neg hdr] at h
  have hK : ((dim - 1 : ℕ) : ℚ) ≠ 0 := by
    have : dim - 1 ≠ 0 := by omega
    exact_mod_cast this
  rw [F.fin_div_fin _ hK, F.fin_mul_fin, F.isInfinite_fin] at h
  rw [if_neg (by simp)] at h
  have hs := (Except.ok.inj h).symm
  subst hs
  dsimp only
  exact ⟨by omega, rfl, rfl, rfl, rfl, by omega, by omega, by omega, rfl, rfl⟩

theorem try_new_ok_min_le_max {start e : ℤ} {dim : ℕ} {s : Linear}
    (h : Linear.try_new start e dim = .ok s) : s.min ≤ s.max := by
  obtain ⟨-, -, -, hmn, hmx, -⟩ := try_new_ok h
  rcases lt_or_le start e with hc | hc
  · rw [hmn, hmx, if_pos hc, if_pos hc]; omega
  · rw [hmn, hmx, if_neg (not_lt.mpr hc), if_neg (not_lt.mpr hc)]; omega

theorem try_new_ok_start_mem {start e : ℤ} {dim : ℕ} {s : Linear}
    (h : Linear.try_new start e dim = .ok s) : s.min ≤ s.start ∧ s.start ≤ s.max := by
  obtain ⟨-, hst, -, hmn, hmx, -⟩ := try_new_ok h
  rcases lt_or_le start e with hc | hc
  · rw [hmn, hmx, hst, if_pos hc, if_pos hc]; omega
  · rw [hmn, hmx, hst, if_neg (not_lt.mpr hc), if_neg (not_lt.mpr hc)]; omega

/-- Reduction of `domain_to_coordinate` on an in-range value, before numeric reduction. -/
theorem d2c_in_range {s : Linear} {v : ℤ} (h1 : s.min ≤ v) (h2 : v ≤ s.max) :
    s.domain_to_coordinate v = some (F.castUsize (F.round
      (F.fin (((if v < s.start then s.start - v else v - s.start) : ℤ) : ℚ) / s.domain_range
        * F.fin ((s.dimension - 1 : ℕ) : ℚ)))) := by
  unfold Linear.domain_to_coordinate
  rw [if_pos ⟨h1, h2⟩]

/-- The unsigned distance from `start` is nonnegative and at most the domain span. -/
theorem diff_bounds {s : Linear} {v : ℤ} (h1 : s.min ≤ v) (h2 : v ≤ s.max)
    (hs1 : s.min ≤ s.start) (hs2 : s.start ≤ s.max) :
    0 ≤ (if v < s.start then s.start - v else v - s.start) ∧
      (if v < s.start then s.start - v else v - s.start) ≤ s.max - s.min := by
  split <;> omega

/-- Closed form of `domain_to_coordinate` for a nondegenerate constructed scale. -/
theorem d2c_closed_form {start e : ℤ} {dim : ℕ} {s : Linear}
    (hok : Linear.try_new start e dim = .ok s) (hdim : dim ≤ F.usizeMax)
    {v : ℤ} (h1 : s.min ≤ v) (h2 : v ≤ s.max) (hr : s.min < s.max) :
    s.domain_to_coordinate v =
      some (rustRound ((((if v < s.start then s.start - v else v - s.start) : ℤ) : ℚ)
        / ((s.max - s.min : ℤ) : ℚ) * ((dim - 1 : ℕ) : ℚ))).toNat := by
  obtain ⟨h5, -, hdimension, -, -, -, -, -, hdr, -⟩ := try_new_ok hok
  obtain ⟨hs1, hs2⟩ := try_new_ok_start_mem hok
  obtain ⟨hd0, hd1⟩ := diff_bounds h1 h2 hs1 hs2
  set d : ℤ := if v < s.start then s.start - v else v - s.start with hd
  have hrg : ((s.max - s.min : ℤ) : ℚ) ≠ 0 := by
    have : (0 : ℤ) < s.max - s.min := by omega
    positivity
  rw [d2c_in_range h1 h2, hdr, hdimension, F.fin_div_fin _ hrg, F.fin_mul_fin, F.round_fin]
  set x : ℚ := ((d : ℤ) : ℚ) / ((s.max - s.min : ℤ) : ℚ) * ((dim - 1 : ℕ) : ℚ) with hx
  have hx0 : 0 ≤ x := by
    apply mul_nonneg
    · apply div_nonneg (by exact_mod_cast hd0)
      have : (0 : ℤ) < s.max - s.min := by omega
      exact_mod_cast this.le
    · positivity
  have hxK : x ≤ ((dim - 1 : ℕ) : ℚ) := by
    have hq : ((d : ℤ) : ℚ) / ((s.max - s.min : ℤ) : ℚ) ≤ 1 := by
      rw [div_le_one (by exact_mod_cast (by omega : (0:ℤ) < s.max - s.min))]
      exact_mod_cast hd1
    calc x ≤ 1 * ((dim - 1 : ℕ) : ℚ) := by
              rw [hx]
              exact mul_le_mul_of_nonneg_right hq (by positivity)
      _ = ((dim - 1 : ℕ) : ℚ) := one_mul _
  have hm0 : 0 ≤ rustRound x := rustRound_nonneg hx0
  have hmK : rustRound x ≤ ((dim - 1 : ℕ) : ℤ) := by
    apply rustRound_le_intCast hx0
    exact_mod_cast hxK
  rw [castUsize_intCast hm0 (by
    have : ((dim - 1 : ℕ) : ℤ) ≤ (F.usizeMax : ℤ) := by exact_mod_cast (by omega : dim - 1 ≤ F.usizeMax)
    omega)]

/-- C10: every coordinate produced by `domain_to_coordinate` is below `dimension`. -/
theorem C10_d2c_bounded {start e : ℤ} {dim : ℕ} {s : Linear}
    (hok : Linear.try_new start e dim = .ok s) (v : ℤ) {c : ℕ}
    (h : s.domain_to_coordinate v = some c) : c < dim := by
  obtain ⟨h5, -, hdimension, -, -, -, -, -, hdr, -⟩ := try_new_ok hok
  obtain ⟨hs1, hs2⟩ := try_new_ok_start_mem hok
  by_cases hin : s.min ≤ v ∧ v ≤ s.max
  swap
  · rw [Linear.domain_to_coordinate, if_neg hin] at h; cases h
  obtain ⟨h1, h2⟩ := hin
  rcases lt_or_eq_of_le (try_new_ok_min_le_max hok) with hr | hr
  · obtain ⟨hd0, hd1⟩ := diff_bounds h1 h2 hs1 hs2
    rw [d2c_in_range h1 h2, hdr, hdimension] at h
    have hrg : ((s.max - s.min : ℤ) : ℚ) ≠ 0 := by
      have : (0 : ℤ) < s.max - s.min := by omega
      positivity
    rw [F.fin_div_fin _ hrg, F.fin_mul_fin, F.round_fin] at h
    set d : ℤ := if v < s.start then s.start - v else v - s.start with hd
    set x : ℚ := ((d : ℤ) : ℚ) / ((s.max - s.min : ℤ) : ℚ) * ((dim - 1 : ℕ) : ℚ) with hx
    have hx0 : 0 ≤ x := by
      apply mul_nonneg
      · apply div_nonneg (by exact_mod_cast hd0)
        exact_mod_cast (by omega : (0:ℤ) < s.max - s.min).le
      · positivity
    have hxK : x ≤ ((dim - 1 : ℕ) : ℚ) := by
      have hq : ((d : ℤ) : ℚ) / ((s.max - s.min : ℤ) : ℚ) ≤ 1 := by
        rw [div_le_one (by exact_mod_cast (by omega : (0:ℤ) < s.max - s.min))]
        exact_mod_cast hd1
      calc x ≤ 1 * ((dim - 1 : ℕ) : ℚ) := mul_le_mul_of_nonneg_right hq (by positivity)
        _ = ((dim - 1 : ℕ) : ℚ) := one_mul _
    have hmK : rustRound x ≤ ((dim - 1 : ℕ) : ℤ) :=
      rustRound_le_intCast hx0 (by exact_mod_cast hxK)
    injection h with hc
    have hle := castUsize_fin_le_toNat (rustRound x)
    rw [hc] at hle
    omega
  · -- degenerate: min = max, so v = start and the distance is 0/0 = NaN, cast 0
    have hveq : v = s.min := by omega
    have hsteq : s.start = s.min := by omega
    rw [d2c_in_range h1 h2, hdr] at h
    rw [← hr] at h
    have hd : (if v < s.start then s.start - v else v - s.start) = 0 := by
      rw [hveq, hsteq]; simp
    rw [hd] at h
    have : ((0 : ℤ) : ℚ) = (0 : ℚ) := by norm_num
    rw [this] at h
    have hmm : ((s.min - s.min : ℤ) : ℚ) = (0 : ℚ) := by push_cast; ring
    rw [hmm, F.fin_div_fin_zero_zero] at h
    have : (F.nan * F.fin ((s.dimension - 1 : ℕ) : ℚ)) = F.nan := rfl
    rw [this] at h
    injection h with hc
    rw [← hc]
    show (0 : ℕ) < dim
    omega

/-- On a degenerate constructed scale (`min = max`), the distance computation is
`0 / 0 = NaN` and the NaN-to-usize cast makes `domain_to_coordinate` return 0. -/
theorem d2c_degenerate {start e : ℤ} {dim : ℕ} {s : Linear}
    (hok : Linear.try_new start e dim = .ok s) (hr : s.min = s.max)
    {v : ℤ} (h1 : s.min ≤ v) (h2 : v ≤ s.max) :
    s.domain_to_coordinate v = some 0 := by
  obtain ⟨-, -, -, -, -, -, -, -, hdr, -⟩ := try_new_ok hok
  obtain ⟨hs1, hs2⟩ := try_new_ok_start_mem hok
  rw [d2c_in_range h1 h2, hdr, ← hr]
  have hd : (if v < s.start then s.start - v else v - s.start) = 0 := by
    have : v = s.start := by omega
    rw [this]; simp
  rw [hd]
  have h0 : ((0 : ℤ) : ℚ) = (0 : ℚ) := by norm_num
  have hmm : ((s.min - s.min : ℤ) : ℚ) = (0 : ℚ) := by push_cast; ring
  rw [h0, hmm, F.fin_div_fin_zero_zero]
  rfl

/-- C1 (amended): round-tripping an in-range value through `domain_to_coordinate`
then `coordinate_to_domain` yields a domain value within half a coordinate step
(`|ratio| / 2`) plus one unit of the integer type's resolution of the original
value. -/
theorem C1_roundtrip_within_half_step {start e : ℤ} {dim : ℕ} {s : Linear}
    (hok : Linear.try_new start e dim = .ok s) (hdim : dim ≤ F.usizeMax)
    {v : ℤ} (h1 : s.min ≤ v) (h2 : v ≤ s.max) :
    ∃ c w, s.domain_to_coordinate v = some c ∧ s.coordinate_to_domain c = some w ∧
      |(w : ℚ) - (v : ℚ)| ≤ F.q (F.abs s.ratio) / 2 + 1 := by
  obtain ⟨h5, hst, hdimension, hmn, hmx, hMIN, hMAX, hspan, hdr, hratio⟩ := try_new_ok hok
  obtain ⟨hs1, hs2⟩ := try_new_ok_start_mem hok
  set sgn : ℚ := if start < e then 1 else -1 with hsgn
  set rg : ℤ := s.max - s.min with hrg
  set K : ℕ := dim - 1 with hK
  set r : ℚ := ((rg : ℤ) : ℚ) / ((K : ℕ) : ℚ) with hrdef
  have hK0 : ((K : ℕ) : ℚ) ≠ 0 := by
    have : K ≠ 0 := by omega
    exact_mod_cast this
  have hKpos : (0 : ℚ) < ((K : ℕ) : ℚ) := by
    have : 0 < K := by omega
    exact_mod_cast this
  have hr0 : 0 ≤ r := by
    apply div_nonneg _ hKpos.le
    exact_mod_cast (by omega : (0 : ℤ) ≤ rg)
  have habs_sgn : |sgn| = 1 := by
    rw [hsgn]; split <;> norm_num
  have habs_ratio : F.q (F.abs s.ratio) = r := by
    rw [hratio, F.abs_fin, F.q_fin, abs_mul, habs_sgn, mul_one, abs_of_nonneg hr0]
  rcases lt_or_eq_of_le (try_new_ok_min_le_max hok) with hlt | heq
  swap
  · -- degenerate scale: coordinate 0 maps back to start = v
    refine ⟨0, s.start, d2c_degenerate hok heq h1 h2, ?_, ?_⟩
    · unfold Linear.coordinate_to_domain
      rw [if_pos (by omega : 0 < s.dimension)]
      have hc0 : ((0 : ℕ) : ℚ) = (0 : ℚ) := by norm_num
      rw [hratio, hc0, F.fin_mul_fin, mul_zero]
      have : F.castI64 (F.fin 0) = 0 := by
        rw [castI64_eq (by norm_num [Linear.MAX])]
        rw [show (0 : ℚ) = ((0 : ℤ) : ℚ) by norm_num, rustTrunc_intCast]
      rw [this, add_zero]
    · have hv : v = s.start := by omega
      rw [hv, sub_self, abs_zero, habs_ratio]
      positivity
  · -- nondegenerate scale
    have hrgpos : (0 : ℤ) < rg := by omega
    have hrgQ : ((rg : ℤ) : ℚ) ≠ 0 := by positivity
    have hrpos : (0 : ℚ) < r := by
      apply div_pos _ hKpos
      exact_mod_cast hrgpos
    rw [d2c_closed_form hok hdim h1 h2 hlt, ← hrg, ← hK]
    set d : ℤ := if v < s.start then s.start - v else v - s.start with hd
    obtain ⟨hd0, hd1⟩ := diff_bounds h1 h2 hs1 hs2
    rw [← hrg, ← hd] at hd1
    set x : ℚ := ((d : ℤ) : ℚ) / ((rg : ℤ) : ℚ) * ((K : ℕ) : ℚ) with hx
    have hx0 : 0 ≤ x := by
      apply mul_nonneg (div_nonneg (by exact_mod_cast hd0) (by exact_mod_cast hrgpos.le))
        hKpos.le
    have hxK : x ≤ ((K : ℕ) : ℚ) := by
      have hdr1 : ((d : ℤ) : ℚ) / ((rg : ℤ) : ℚ) ≤ 1 := by
        rw [div_le_one (by exact_mod_cast hrgpos)]
        exact_mod_cast hd1
      calc x ≤ 1 * ((K : ℕ) : ℚ) := mul_le_mul_of_nonneg_right hdr1 hKpos.le
        _ = ((K : ℕ) : ℚ) := one_mul _
    set m : ℤ := rustRound x with hm
    have hm0 : 0 ≤ m := rustRound_nonneg hx0
    have hmQ0 : (0 : ℚ) ≤ (m : ℚ) := by exact_mod_cast hm0
    have hmK : m ≤ ((K : ℕ) : ℤ) := rustRound_le_intCast hx0 (by exact_mod_cast hxK)
    have hcast_m : ((m.toNat : ℕ) : ℚ) = (m : ℚ) := by
      have := Int.toNat_of_nonneg hm0
      exact_mod_cast this
    have hrx : r * x = ((d : ℤ) : ℚ) := by
      rw [hrdef, hx]
      field_simp
      ring
    have hrm_le : r * (m : ℚ) ≤ r * ((K : ℕ) : ℚ) := by
      apply mul_le_mul_of_nonneg_left _ hrpos.le
      exact_mod_cast hmK
    have hrK : r * ((K : ℕ) : ℚ) = ((rg : ℤ) : ℚ) := by
      rw [hrdef]; field_simp
    have hrm0 : 0 ≤ r * (m : ℚ) := mul_nonneg hrpos.le hmQ0
    have habs_rm : |r * (m : ℚ) - ((d : ℤ) : ℚ)| ≤ r / 2 := by
      have h12 := abs_rustRound_sub x
      have harg : r * (m : ℚ) - ((d : ℤ) : ℚ) = r * ((m : ℚ) - x) := by
        rw [mul_sub, hrx]
      rw [harg, abs_mul, abs_of_nonneg hrpos.le]
      calc r * |(m : ℚ) - x| ≤ r * (1/2) := by
            apply mul_le_mul_of_nonneg_left _ hrpos.le
            rw [hm]
            exact h12
        _ = r / 2 := by ring
    set T : ℤ := rustTrunc (r * (m : ℚ)) with hT
    have hT1 : (T : ℚ) ≤ r * (m : ℚ) := rustTrunc_le hrm0
    have hT2 : r * (m : ℚ) - 1 < (T : ℚ) := lt_rustTrunc_add_one hrm0
    have hc2dlt : m.toNat < s.dimension := by omega
    have habsb : |r * sgn * (m : ℚ)| ≤ (Linear.MAX : ℚ) := by
      rw [abs_mul, abs_mul, habs_sgn, mul_one, abs_of_nonneg hrpos.le,
        abs_of_nonneg hmQ0]
      calc r * (m : ℚ) ≤ ((rg : ℤ) : ℚ) := hrm_le.trans (le_of_eq hrK)
        _ ≤ (Linear.MAX : ℚ) := by exact_mod_cast (by omega : rg ≤ Linear.MAX)
    have hc2d : s.coordinate_to_domain m.toNat
        = some (s.start + rustTrunc (r * sgn * (m : ℚ))) := by
      unfold Linear.coordinate_to_domain
      rw [if_pos hc2dlt, hratio, F.fin_mul_fin, hcast_m, castI64_eq habsb]
    by_cases hse : start < e
    · have hsgn1 : sgn = 1 := by rw [hsgn, if_pos hse]
      have hstmin : s.start = s.min := by rw [hst, hmn, if_pos hse]
      have hdv : d = v - s.start := by
        rw [hd, if_neg (by omega : ¬ v < s.start)]
      have harg : r * sgn * (m : ℚ) = r * (m : ℚ) := by rw [hsgn1]; ring
      rw [harg, ← hT] at hc2d
      refine ⟨m.toNat, s.start + T, rfl, hc2d, ?_⟩
      rw [habs_ratio]
      obtain ⟨hb1, hb2⟩ := abs_le.mp habs_rm
      have hdq : ((d : ℤ) : ℚ) = (v : ℚ) - (s.start : ℚ) := by
        rw [hdv]; push_cast; ring
      have herr : ((s.start + T : ℤ) : ℚ) - (v : ℚ) = (T : ℚ) - ((d : ℤ) : ℚ) := by
        rw [hdq]; push_cast; ring
      rw [herr, abs_le]
      constructor <;> linarith
    · have hsgn1 : sgn = -1 := by rw [hsgn, if_neg hse]
      have hstmax : s.start = s.max := by rw [hst, hmx, if_neg hse]
      have hdv : d = s.start - v := by
        rw [hd]; split <;> omega
      have harg : r * sgn * (m : ℚ) = -(r * (m : ℚ)) := by rw [hsgn1]; ring
      rw [harg, rustTrunc_neg, ← hT] at hc2d
      refine ⟨m.toNat, s.start + -T, rfl, hc2d, ?_⟩
      rw [habs_ratio]
      obtain ⟨hb1, hb2⟩ := abs_le.mp habs_rm
      have hdq : ((d : ℤ) : ℚ) = (s.start : ℚ) - (v : ℚ) := by
        rw [hdv]; push_cast; ring
      have herr : ((s.start + -T : ℤ) : ℚ) - (v : ℚ) = ((d : ℤ) : ℚ) - (T : ℚ) := by
        rw [hdq]; push_cast; ring
      rw [herr, abs_le]
      constructor <;> linarith

/-- C6 (amended): `coordinate_to_domain` returns no result exactly when the
coordinate is at least `dimension`; otherwise it returns
`start + trunc(ratio * coordinate)` — the float-to-integer cast truncates
toward zero, it does not round.  The third conjunct ties the stored ratio to
the construction inputs. -/
theorem C6_c2d_spec {start e : ℤ} {dim : ℕ} {s : Linear}
    (hok : Linear.try_new start e dim = .ok s) (c : ℕ) :
    (dim ≤ c → s.coordinate_to_domain c = none) ∧
    (c < dim → s.coordinate_to_domain c
      = some (s.start + rustTrunc (F.q s.ratio * (c : ℚ)))) ∧
    F.q s.ratio = ((s.max - s.min : ℤ) : ℚ) / ((dim - 1 : ℕ) : ℚ) *
      (if start < e then 1 else -1) := by
  obtain ⟨h5, hst, hdimension, hmn, hmx, hMIN, hMAX, hspan, hdr, hratio⟩ := try_new_ok hok
  set sgn : ℚ := if start < e then 1 else -1 with hsgn
  set rg : ℤ := s.max - s.min with hrg
  set K : ℕ := dim - 1 with hK
  set r : ℚ := ((rg : ℤ) : ℚ) / ((K : ℕ) : ℚ) with hrdef
  have hKpos : (0 : ℚ) < ((K : ℕ) : ℚ) := by
    have : 0 < K := by omega
    exact_mod_cast this
  have hr0 : 0 ≤ r := by
    apply div_nonneg _ hKpos.le
    exact_mod_cast (by omega : (0 : ℤ) ≤ rg)
  have habs_sgn : |sgn| = 1 := by
    rw [hsgn]; split <;> norm_num
  refine ⟨?_, ?_, by rw [hratio, F.q_fin]⟩
  · intro hc
    unfold Linear.coordinate_to_domain
    rw [if_neg (by omega)]
  · intro hc
    unfold Linear.coordinate_to_domain
    rw [if_pos (by omega), hratio, F.fin_mul_fin, F.q_fin]
    have habsb : |r * sgn * (c : ℚ)| ≤ (Linear.MAX : ℚ) := by
      rw [abs_mul, abs_mul, habs_sgn, mul_one, abs_of_nonneg hr0,
        abs_of_nonneg (by positivity : (0:ℚ) ≤ ((c : ℕ) : ℚ))]
      have hcK : ((c : ℕ) : ℚ) ≤ ((K : ℕ) : ℚ) := by
        exact_mod_cast (by omega : c ≤ K)
      have hrc : r * ((c : ℕ) : ℚ) ≤ r * ((K : ℕ) : ℚ) :=
        mul_le_mul_of_nonneg_left hcK hr0
      have hrK : r * ((K : ℕ) : ℚ) = ((rg : ℤ) : ℚ) := by
        rw [hrdef]; field_simp
      calc r * ((c : ℕ) : ℚ) ≤ ((rg : ℤ) : ℚ) := hrc.trans (le_of_eq hrK)
        _ ≤ (Linear.MAX : ℚ) := by exact_mod_cast (by omega : rg ≤ Linear.MAX)
    rw [castI64_eq habsb]

/-- Away from exact half-integer ties, rounding commutes with reflection
`x ↦ K - x` on `[0, K]`. -/
theorem round_mirror {x : ℚ} {K : ℤ} (h0 : 0 ≤ x) (hxK : x ≤ (K : ℚ))
    (ht : ∀ n : ℤ, x + 1/2 ≠ (n : ℚ)) :
    rustRound ((K : ℚ) - x) = K - rustRound x := by
  have hKx0 : 0 ≤ (K : ℚ) - x := by linarith
  unfold rustRound
  rw [if_pos hKx0, if_pos h0]
  have e1 : (K : ℚ) - x + 1/2 = (1/2 - x) + (K : ℚ) := by ring
  rw [e1, Int.floor_add_int]
  have e2 : (1/2 : ℚ) - x = -(x - 1/2) := by ring
  rw [e2, Int.floor_neg]
  have hni : x - 1/2 ≠ ((⌊x - 1/2⌋ : ℤ) : ℚ) := by
    intro hn
    exact ht (⌊x - 1/2⌋ + 1) (by push_cast; linarith)
  have hflt : ((⌊x - 1/2⌋ : ℤ) : ℚ) < x - 1/2 :=
    lt_of_le_of_ne (Int.floor_le _) (fun hh => hni hh.symm)
  have hceil : ⌈x - 1/2⌉ = ⌊x - 1/2⌋ + 1 := by
    rw [Int.ceil_eq_iff]
    constructor
    · push_cast; linarith
    · push_cast
      have := Int.lt_floor_add_one (x - 1/2)
      linarith
  have hfloor : ⌊x + 1/2⌋ = ⌊x - 1/2⌋ + 1 := by
    have e3 : x + 1/2 = (x - 1/2) + 1 := by ring
    rw [e3]
    have := Int.floor_add_one (x - 1/2)
    omega
  omega

/-- An odd multiple of a positive `rg` is `rg` modulo `2 * rg`. -/
theorem odd_mul_emod {rg n : ℤ} (h : 0 < rg) : (rg * (2 * n - 1)) % (2 * rg) = rg := by
  have e1 : rg * (2 * n - 1) = rg + (2 * rg) * (n - 1) := by ring
  rw [e1, Int.add_mul_emod_self_left]
  exact Int.emod_eq_of_lt h.le (by omega)

/-- C3 (amended): when the domain is nondegenerate and the exact scaled offset
of `v` is not exactly halfway between two coordinates, the reversed scale
(`try_new(end, start, dim)`) assigns the mirrored coordinate
`dim - 1 - coordinate`. -/
theorem C3_reversed_mirror {start e : ℤ} {dim : ℕ} {s t : Linear}
    (hs : Linear.try_new start e dim = .ok s)
    (ht : Linear.try_new e start dim = .ok t)
    (hdim : dim ≤ F.usizeMax) (hne : start ≠ e)
    {v : ℤ} (h1 : s.min ≤ v) (h2 : v ≤ s.max)
    (htie : (2 * (v - s.min) * ((dim - 1 : ℕ) : ℤ)) % (2 * (s.max - s.min))
      ≠ s.max - s.min) :
    ∃ c c2, s.domain_to_coordinate v = some c ∧ t.domain_to_coordinate v = some c2 ∧
      (c2 : ℤ) = ((dim : ℤ) - 1) - (c : ℤ) := by
  obtain ⟨h5, hsst, -, hsmn, hsmx, -, -, -, -, -⟩ := try_new_ok hs
  obtain ⟨-, htst, -, htmn, htmx, -, -, -, -, -⟩ := try_new_ok ht
  set K : ℕ := dim - 1 with hK
  have hKQ : (0:ℚ) < ((K : ℕ) : ℚ) := by
    have : 0 < K := by omega
    exact_mod_cast this
  rcases lt_or_gt_of_ne hne with hse | hse
  · -- forward original, reversed copy
    have hsmin : s.min = start := by rw [hsmn, if_pos hse]
    have hsmax : s.max = e := by rw [hsmx, if_pos hse]
    have hsstart : s.start = start := hsst
    have htmin : t.min = start := by rw [htmn, if_neg (by omega)]
    have htmax : t.max = e := by rw [htmx, if_neg (by omega)]
    have htstart : t.start = e := htst
    have hlt_s : s.min < s.max := by omega
    have hlt_t : t.min < t.max := by omega
    have h1t : t.min ≤ v := by omega
    have h2t : v ≤ t.max := by omega
    rw [d2c_closed_form hs hdim h1 h2 hlt_s, d2c_closed_form ht hdim h1t h2t hlt_t]
    have hds : (if v < s.start then s.start - v else v - s.start) = v - start := by
      rw [if_neg (by omega)]
      omega
    have hdt : (if v < t.start then t.start - v else v - t.start) = e - v := by
      split <;> omega
    rw [hds, hdt, hsmax, hsmin, htmax, htmin]
    set rg : ℤ := e - start with hrg
    have hrgpos : (0:ℤ) < rg := by omega
    have hrgQ : (0:ℚ) < ((rg : ℤ) : ℚ) := by exact_mod_cast hrgpos
    set x : ℚ := ((v - start : ℤ) : ℚ) / ((rg : ℤ) : ℚ) * ((K : ℕ) : ℚ) with hx
    have hx0 : 0 ≤ x := by
      apply mul_nonneg (div_nonneg _ hrgQ.le) hKQ.le
      exact_mod_cast (by omega : (0:ℤ) ≤ v - start)
    have hxK : x ≤ ((K : ℕ) : ℚ) := by
      have hq : ((v - start : ℤ) : ℚ) / ((rg : ℤ) : ℚ) ≤ 1 := by
        rw [div_le_one hrgQ]
        exact_mod_cast (by omega : v - start ≤ rg)
      calc x ≤ 1 * ((K : ℕ) : ℚ) := mul_le_mul_of_nonneg_right hq hKQ.le
        _ = ((K : ℕ) : ℚ) := one_mul _
    have hmirror : ((e - v : ℤ) : ℚ) / ((rg : ℤ) : ℚ) * ((K : ℕ) : ℚ)
        = (((K : ℕ) : ℤ) : ℚ) - x := by
      rw [hx]
      have : ((e - v : ℤ) : ℚ) = ((rg : ℤ) : ℚ) - ((v - start : ℤ) : ℚ) := by
        rw [hrg]; push_cast; ring
      rw [this]
      field_simp
      ring
    have hnotie : ∀ n : ℤ, x + 1/2 ≠ (n : ℚ) := by
      intro n hn
      apply htie
      rw [hsmin, hsmax, ← hrg]
      have h2d : 2 * (v - start) * ((K : ℕ) : ℤ) = rg * (2 * n - 1) := by
        have : ((2 * (v - start) * ((K : ℕ) : ℤ) : ℤ) : ℚ)
            = ((rg * (2 * n - 1) : ℤ) : ℚ) := by
          push_cast
          rw [hx] at hn
          field_simp at hn
          nlinarith [hn]
        exact_mod_cast this
      rw [hK] at h2d ⊢
      rw [h2d]
      exact odd_mul_emod hrgpos
    rw [hmirror, round_mirror hx0 hxK hnotie]
    set m : ℤ := rustRound x with hm
    have hm0 : 0 ≤ m := rustRound_nonneg hx0
    have hmK : m ≤ ((K : ℕ) : ℤ) := rustRound_le_intCast hx0 (by exact_mod_cast hxK)
    refine ⟨m.toNat, (((K : ℕ) : ℤ) - m).toNat, rfl, rfl, ?_⟩
    omega
  · -- reversed original, forward copy
    have hsmin : s.min = e := by rw [hsmn, if_neg (by omega)]
    have hsmax : s.max = start := by rw [hsmx, if_neg (by omega)]
    have hsstart : s.start = start := hsst
    have htmin : t.min = e := by rw [htmn, if_pos (by omega)]
    have htmax : t.max = start := by rw [htmx, if_pos (by omega)]
    have htstart : t.start = e := htst
    have hlt_s : s.min < s.max := by omega
    have hlt_t : t.min < t.max := by omega
    have h1t : t.min ≤ v := by omega
    have h2t : v ≤ t.max := by omega
    rw [d2c_closed_form hs hdim h1 h2 hlt_s, d2c_closed_form ht hdim h1t h2t hlt_t]
    have hds : (if v < s.start then s.start - v else v - s.start) = start - v := by
      split <;> omega
    have hdt : (if v < t.start then t.start - v else v - t.start) = v - e := by
      rw [if_neg (by omega)]
      omega
    rw [hds, hdt, hsmax, hsmin, htmax, htmin]
    set rg : ℤ := start - e with hrg
    have hrgpos : (0:ℤ) < rg := by omega
    have hrgQ : (0:ℚ) < ((rg : ℤ) : ℚ) := by exact_mod_cast hrgpos
    set x : ℚ := ((v - e : ℤ) : ℚ) / ((rg : ℤ) : ℚ) * ((K : ℕ) : ℚ) with hx
    have hx0 : 0 ≤ x := by
      apply mul_nonneg (div_nonneg _ hrgQ.le) hKQ.le
      exact_mod_cast (by omega : (0:ℤ) ≤ v - e)
    have hxK : x ≤ ((K : ℕ) : ℚ) := by
      have hq : ((v - e : ℤ) : ℚ) / ((rg : ℤ) : ℚ) ≤ 1 := by
        rw [div_le_one hrgQ]
        exact_mod_cast (by omega : v - e ≤ rg)
      calc x ≤ 1 * ((K : ℕ) : ℚ) := mul_le_mul_of_nonneg_right hq hKQ.le
        _ = ((K : ℕ) : ℚ) := one_mul _
    have hmirror : ((start - v : ℤ) : ℚ) / ((rg : ℤ) : ℚ) * ((K : ℕ) : ℚ)
        = (((K : ℕ) : ℤ) : ℚ) - x := by
      rw [hx]
      have : ((start - v : ℤ) : ℚ) = ((rg : ℤ) : ℚ) - ((v - e : ℤ) : ℚ) := by
        rw [hrg]; push_cast; ring
      rw [this]
      field_simp
      ring
    have hnotie : ∀ n : ℤ, x + 1/2 ≠ (n : ℚ) := by
      intro n hn
      apply htie
      rw [hsmin, hsmax, ← hrg]
      have h2d : 2 * (v - e) * ((K : ℕ) : ℤ) = rg * (2 * n - 1) := by
        have : ((2 * (v - e) * ((K : ℕ) : ℤ) : ℤ) : ℚ)
            = ((rg * (2 * n - 1) : ℤ) : ℚ) := by
          push_cast
          rw [hx] at hn
          field_simp at hn
          nlinarith [hn]
        exact_mod_cast this
      rw [hK] at h2d ⊢
      rw [h2d]
      exact odd_mul_emod hrgpos
    rw [hmirror, round_mirror hx0 hxK hnotie]
    set m : ℤ := rustRound x with hm
    have hm0 : 0 ≤ m := rustRound_nonneg hx0
    have hmK : m ≤ ((K : ℕ) : ℤ) := rustRound_le_intCast hx0 (by exact_mod_cast hxK)
    refine ⟨(((K : ℕ) : ℤ) - m).toNat, m.toNat, rfl, rfl, ?_⟩
    omega

/-- Rust `as usize` of a nonnegative integer-valued float: clamp to `usize::MAX`. -/
theorem castUsize_natCast (n : ℕ) : F.castUsize (F.fin ((n : ℕ) : ℚ)) = min n F.usizeMax := by
  show (if ((n : ℕ) : ℚ) < 0 then 0 else min (rustTrunc ((n : ℕ) : ℚ)).toNat F.usizeMax)
    = min n F.usizeMax
  rw [if_neg (not_lt.mpr (by positivity))]
  have hn : rustTrunc ((n : ℕ) : ℚ) = (n : ℤ) := by
    rw [show ((n : ℕ) : ℚ) = (((n : ℕ) : ℤ) : ℚ) by push_cast; ring, rustTrunc_intCast]
  rw [hn]
  simp

theorem castUsize_intCast_not_lt {m : ℤ} {de : ℕ} (hm : (de : ℤ) ≤ m)
    (hde : de ≤ F.usizeMax) : ¬ (F.castUsize (F.fin ((m : ℤ) : ℚ)) < de) := by
  show ¬ ((if ((m : ℤ) : ℚ) < 0 then 0 else min (rustTrunc ((m : ℤ) : ℚ)).toNat F.usizeMax) < de)
  rw [if_neg (by exact_mod_cast not_lt.mpr (by omega : (0:ℤ) ≤ m)), rustTrunc_intCast]
  omega

/-- The iterator state after `n` advances, when all fields are finite. -/
theorem advanceN_state (cur stp inc d0 : ℚ) (de : ℕ) (n : ℕ) :
    DomainIter.advance^[n] ⟨F.fin cur, F.fin stp, F.fin inc, F.fin d0, de⟩
      = ⟨F.fin (cur + n * stp), F.fin stp, F.fin inc, F.fin (d0 + n * inc), de⟩ := by
  induction n with
  | zero => simp
  | succ k ih =>
      rw [Function.iterate_succ_apply', ih]
      unfold DomainIter.advance
      dsimp only
      rw [F.fin_add_fin, F.fin_add_fin]
      have e1 : cur + (k : ℚ) * stp + stp = cur + ((k : ℕ) + 1 : ℚ) * stp := by ring
      have e2 : d0 + (k : ℚ) * inc + inc = d0 + ((k : ℕ) + 1 : ℚ) * inc := by ring
      rw [e1, e2]
      congr 2 <;> push_cast <;> ring

/-- One `next` step of the iterator at coordinate spacing exactly 1. -/
theorem next_advanceN_one (cur stp : ℚ) {de : ℕ} (hde : de ≤ F.usizeMax) (n : ℕ) :
    DomainIter.next (DomainIter.advance^[n] ⟨F.fin cur, F.fin stp, F.fin 1, F.fin 0, de⟩)
      = if n < de then
          some ((F.castI64 (F.fin (cur + n * stp)), n),
            DomainIter.advance^[n + 1] ⟨F.fin cur, F.fin stp, F.fin 1, F.fin 0, de⟩)
        else none := by
  rw [Function.iterate_succ_apply', advanceN_state]
  unfold DomainIter.next DomainIter.advance
  dsimp only
  have hacc : (0 : ℚ) + (n : ℚ) * 1 = ((n : ℕ) : ℚ) := by ring
  rw [hacc, F.round_fin, rustRound_natCast,
    show (((n : ℕ) : ℤ) : ℚ) = ((n : ℕ) : ℚ) from by norm_cast, castUsize_natCast]
  by_cases hn : n < de
  · rw [if_pos (by omega), if_pos hn, min_eq_left (by omega)]
  · rw [if_neg (by omega), if_neg hn]

/-- With a strictly positive finite increment, the coordinate accumulator
eventually reaches `dimension_end` and the iterator stops. -/
theorem iter_terminates_of_pos {inc : ℚ} (hinc : 0 < inc) (cur stp : ℚ) {de : ℕ}
    (hde : de ≤ F.usizeMax) :
    ∃ n, DomainIter.next
      (DomainIter.advance^[n] ⟨F.fin cur, F.fin stp, F.fin inc, F.fin 0, de⟩) = none := by
  obtain ⟨n, hn⟩ := exists_nat_gt ((((de : ℕ) : ℚ) + 1) / inc)
  refine ⟨n, ?_⟩
  rw [advanceN_state]
  unfold DomainIter.next
  dsimp only
  have hq : ((de : ℕ) : ℚ) + 1 ≤ 0 + (n : ℚ) * inc := by
    have := (div_lt_iff₀ hinc).mp hn
    linarith
  have hq0 : (0 : ℚ) ≤ 0 + (n : ℚ) * inc := by
    have : (0 : ℚ) ≤ ((de : ℕ) : ℚ) + 1 := by positivity
    linarith
  have hround : ((de : ℕ) : ℤ) ≤ rustRound (0 + (n : ℚ) * inc) := by
    unfold rustRound
    rw [if_pos hq0]
    have h1 : ((de : ℕ) : ℤ) + 1 ≤ ⌊0 + (n : ℚ) * inc + 1/2⌋ := by
      apply Int.le_floor.mpr
      push_cast
      linarith
    omega
  rw [F.round_fin, if_neg (castUsize_intCast_not_lt hround hde)]

/-- A nondegenerate pair of endpoints yields a strictly positive span. -/
theorem try_new_ok_min_lt_max {start e : ℤ} {dim : ℕ} {s : Linear}
    (hok : Linear.try_new start e dim = .ok s) (hne : start ≠ e) : s.min < s.max := by
  obtain ⟨-, -, -, hmn, hmx, -⟩ := try_new_ok hok
  rcases lt_or_gt_of_ne hne with h | h
  · rw [hmn, hmx, if_pos h, if_pos h]; omega
  · rw [hmn, hmx, if_neg (by omega), if_neg (by omega)]; omega

/-- The stored ratio of a nondegenerate scale is a nonzero finite value. -/
theorem ratio_q_ne_zero {start e : ℤ} {dim : ℕ} {s : Linear}
    (hok : Linear.try_new start e dim = .ok s) (hne : start ≠ e) :
    ((s.max - s.min : ℤ) : ℚ) / ((dim - 1 : ℕ) : ℚ) * (if start < e then 1 else -1) ≠ 0 := by
  obtain ⟨h5, -, -, -, -, -, -, -, -, -⟩ := try_new_ok hok
  have hlt := try_new_ok_min_lt_max hok hne
  apply mul_ne_zero
  · apply div_ne_zero
    · exact_mod_cast (by omega : s.max - s.min ≠ 0)
    · exact_mod_cast (by omega : dim - 1 ≠ 0)
  · split <;> norm_num

/-- The fresh iterator state of `iter()` on a nondegenerate scale: increment
`|ratio / ratio| = 1`, domain step `ratio`. -/
theorem iter_state {start e : ℤ} {dim : ℕ} {s : Linear}
    (hok : Linear.try_new start e dim = .ok s) (hne : start ≠ e) :
    Linear.iter s = ⟨F.fin ((s.start : ℤ) : ℚ),
      F.fin (((s.max - s.min : ℤ) : ℚ) / ((dim - 1 : ℕ) : ℚ) * (if start < e then 1 else -1)),
      F.fin 1, F.fin 0, dim⟩ := by
  obtain ⟨-, -, hdimension, -, -, -, -, -, -, hratio⟩ := try_new_ok hok
  have hρ := ratio_q_ne_zero hok hne
  unfold Linear.iter Linear.create_iter
  rw [hratio, F.fin_div_fin _ hρ, div_self hρ, F.abs_fin, abs_one]
  dsimp only
  rw [F.fin_mul_fin, one_mul, hdimension]

/-- C2 (amended): on a scale with distinct endpoints, `iter()` emits exactly
`dimension` pairs: the n-th `next` call (n < dimension) emits coordinate n —
so the first coordinate is 0 and the last is `dimension - 1` — and the call
after the `dimension`-th emission ends the sequence. -/
theorem C2_iter_count {start e : ℤ} {dim : ℕ} {s : Linear}
    (hok : Linear.try_new start e dim = .ok s) (hne : start ≠ e)
    (hdim : dim ≤ F.usizeMax) :
    (∀ n, n < dim → ∃ w, DomainIter.next (DomainIter.advance^[n] (Linear.iter s))
        = some ((w, n), DomainIter.advance^[n + 1] (Linear.iter s)))
    ∧ DomainIter.next (DomainIter.advance^[dim] (Linear.iter s)) = none := by
  rw [iter_state hok hne]
  constructor
  · intro n hn
    rw [next_advanceN_one _ _ hdim, if_pos hn]
    exact ⟨_, rfl⟩
  · rw [next_advanceN_one _ _ hdim, if_neg (by omega)]

/-- C7 (amended): on a scale with distinct endpoints, both `iter()` and
`intervals(step)` for any nonzero step produce finite sequences: after finitely
many advances, `next` returns the end-of-sequence result. -/
theorem C7_enumeration_finite {start e : ℤ} {dim : ℕ} {s : Linear}
    (hok : Linear.try_new start e dim = .ok s) (hne : start ≠ e)
    (hdim : dim ≤ F.usizeMax) :
    (∃ n, DomainIter.next (DomainIter.advance^[n] (Linear.iter s)) = none)
    ∧ ∀ step : ℤ, step ≠ 0 →
        ∃ n, DomainIter.next (DomainIter.advance^[n] (Linear.intervals s step)) = none := by
  obtain ⟨-, -, hdimension, -, -, -, -, -, -, hratio⟩ := try_new_ok hok
  have hρ := ratio_q_ne_zero hok hne
  constructor
  · rw [iter_state hok hne]
    exact iter_terminates_of_pos one_pos _ _ hdim
  · intro step hstep
    unfold Linear.intervals Linear.create_iter
    rw [hratio, F.fin_div_fin _ hρ, F.abs_fin]
    dsimp only
    rw [F.fin_mul_fin, hdimension]
    apply iter_terminates_of_pos _ _ _ hdim
    apply abs_pos.mpr
    apply div_ne_zero _ hρ
    exact_mod_cast hstep

/-- C5 (amended): when the endpoints pass the bound checks but the span
`max - min` exceeds the safe maximum, `try_new` fails with the `OutOfRange`
error — not with `RangeExceedsMaximum`, which the constructor never produces. -/
theorem C5_span_error_kind (start e : ℤ) (dim : ℕ) (h5 : 5 ≤ dim)
    (hmin : Linear.MIN ≤ min start e) (hmax : max start e ≤ Linear.MAX)
    (hspan : Linear.MAX < max start e - min start e) :
    (tryNewError start e dim).map ScaleError.isOutOfRange = some true ∧
    (tryNewError start e dim).map ScaleError.isRangeExceedsMaximum = some false := by
  have hmn : (if start < e then start else e) = min start e := by
    rcases lt_or_le start e with h | h
    · rw [if_pos h, min_eq_left h.le]
    · rw [if_neg (not_lt.mpr h), min_eq_right h]
  have hmx : (if start < e then e else start) = max start e := by
    rcases lt_or_le start e with h | h
    · rw [if_pos h, max_eq_right h.le]
    · rw [if_neg (not_lt.mpr h), max_eq_left h]
  unfold tryNewError Linear.try_new
  rw [if_neg (by omega)]
  dsimp only
  rw [hmn, hmx, if_neg (by omega), if_neg (by omega), if_pos hspan]
  exact ⟨rfl, rfl⟩

/-- Keeping exactly the entries whose enumeration index is below `k` is `take`. -/
theorem enumFrom_filterMap_lt {D : Type} (k : ℕ) (l : List D) (n : ℕ) :
    (List.enumFrom n l).filterMap (fun p => if p.1 < k then some p.2 else none)
      = l.take (k - n) := by
  induction l generalizing n with
  | nil => simp
  | cons a t ih =>
      show List.filterMap _ ((n, a) :: List.enumFrom (n + 1) t) = _
      rw [List.filterMap_cons, ih (n + 1)]
      by_cases hn : n < k
      · rw [if_pos hn]
        have hk : k - n = (k - (n + 1)) + 1 := by omega
        rw [hk, List.take_succ_cons]
      · rw [if_neg hn]
        have h1 : k - n = 0 := by omega
        have h2 : k - (n + 1) = 0 := by omega
        rw [h1, h2, List.take_zero, List.take_zero]

/-- The emission sequence of a cursor pairs each remaining value with
`start + i * step`. -/
theorem run_zip {D : Type} (st : ℕ) (l : List D) (d0 : ℕ) :
    ScaledStepsIter.run ⟨d0, st, l⟩
      = List.zip ((List.range l.length).map (fun i => d0 + st * i)) l := by
  induction l generalizing d0 with
  | nil => simp [ScaledStepsIter.run, ScaledStepsIter.runAux]
  | cons a t ih =>
      show (d0, a) :: ScaledStepsIter.run ⟨d0 + st, st, t⟩ = _
      rw [ih (d0 + st), List.length_cons, List.range_succ_eq_map]
      rw [List.map_cons, List.map_map, List.zip_cons_cons]
      have : (fun i => d0 + st * i) ∘ Nat.succ = fun i => (d0 + st) + st * i := by
        funext i
        simp [Nat.succ_eq_add_one]
        ring
      rw [this]
      simp

/-- C9: `ordered` keeps at most `dimension - 1` labels in input order, and with
`count` kept labels emits the i-th label at coordinate
`(dimension / (count + 1)) * (i + 1)`, so the first coordinate is
`dimension_step`, not 0. -/
theorem C9_ordered_spec {D : Type} (dim : ℕ) (L : List D) (hdim : 0 < dim) :
    ((ScaledSteps.new dim : ScaledSteps D).ordered L).map
        (fun t => ScaledStepsIter.run (ScaledSteps.iter t))
      = some (List.zip
          ((List.range (L.take (dim - 1)).length).map
            (fun i => (dim / ((L.take (dim - 1)).length + 1)) * (i + 1)))
          (L.take (dim - 1))) := by
  unfold ScaledSteps.ordered ScaledSteps.new
  rw [if_neg (show ¬ dim = 0 by omega)]
  dsimp only
  have henum : L.enum.filterMap (fun p => if p.1 < dim - 1 then some p.2 else none)
      = L.take (dim - 1) := by
    have := enumFrom_filterMap_lt (dim - 1) L 0
    simpa [List.enum] using this
  rw [henum, Option.map_some']
  unfold ScaledSteps.iter
  dsimp only [ScaledSteps.new]
  rw [run_zip]
  congr 1
  congr 1
  apply List.map_congr_left
  intro i hi
  ring

/-!
### Concrete evaluations: counterexamples, panic evidence, and witnesses

The kernel evaluates the rational arithmetic of the model once the
`Rat` operations are unsealed.
-/

section

attribute [local semireducible] Rat.mul Rat.inv Rat.add Rat.sub

/-- C4: the panic evidence for the no-panic claim.  `discrete_range` over an
empty range divides `dimension` by a zero value distance, `Band::new` with an
empty domain and `ordered` with dimension 0 subtract from a zero usize; the
embedding returns the absent value exactly on those panicking paths. -/
theorem C4_panic_evidence :
    ((ScaledSteps.new 800 : ScaledSteps ℤ).discrete_range 0 0).isNone = true ∧
    (Band.new ([] : List ℕ) 300).isNone = true ∧
    ((ScaledSteps.new 0 : ScaledSteps ℕ).ordered [1]).isNone = true :=
  ⟨by decide, by decide, by decide⟩

/-- C8: the step generator over dimension 800 with discrete range `0..360`
yields exactly 360 (coordinate, value) pairs, the last at coordinate 718 with
domain value 359. -/
theorem C8_discrete_range_0_360 :
    ((ScaledSteps.new 800 : ScaledSteps ℤ).discrete_range 0 360).map
      (fun t => ((ScaledStepsIter.run (ScaledSteps.iter t)).length,
                 (ScaledStepsIter.run (ScaledSteps.iter t)).getLast?))
    = some (360, some (718, (359 : ℤ))) := by
  set_option maxRecDepth 4000 in decide

/-- C1 counterexample: on the scale `try_new(0, 1000, 5)` the round trip of the
in-range value 100 returns 0, which is 100 domain units away from 100 — far
more than one unit of the i64 type's resolution. -/
theorem C1_roundtrip_cex :
    ((Linear.try_new 0 1000 5).toOption.bind fun s =>
      (s.domain_to_coordinate 100).bind fun c => s.coordinate_to_domain c) = some 0
    ∧ ¬ (|(0 : ℚ) - (100 : ℚ)| ≤ 1) :=
  ⟨by decide, by norm_num⟩

/-- C2 counterexample: `try_new(5, 5, 5)` succeeds, and `iter()` on it emits a
sixth pair — more than `dimension = 5` — because the NaN increment keeps the
rounded coordinate accumulator at 0. -/
theorem C2_iter_count_cex :
    ((Linear.try_new 5 5 5).toOption.map
      (fun s => (DomainIter.takeIter 6 (Linear.iter s)).length)) = some 6 ∧ 6 ≠ 5 :=
  ⟨by decide, by decide⟩

/-- C3 counterexample: on `try_new(0, 2, 6)` and its reversal `try_new(2, 0, 6)`
the value 1 sits exactly halfway between coordinates; both scales round the tie
away from zero to coordinate 3, so the mirrored coordinate identity
`3 = 6 - 1 - 3` fails. -/
theorem C3_reversed_mirror_cex :
    ((Linear.try_new 0 2 6).toOption.bind fun s => s.domain_to_coordinate 1) = some 3 ∧
    ((Linear.try_new 2 0 6).toOption.bind fun t => t.domain_to_coordinate 1) = some 3 ∧
    (3 : ℤ) ≠ (6 - 1) - 3 :=
  ⟨by decide, by decide, by decide⟩

/-- C5 counterexample: endpoints at the safe bounds pass the endpoint checks,
the span check then fails — but with the `OutOfRange` error, not with
`RangeExceedsMaximum` as the claim states. -/
theorem C5_span_error_cex :
    (tryNewError Linear.MIN Linear.MAX 10).map ScaleError.isRangeExceedsMaximum
      = some false ∧
    (tryNewError Linear.MIN Linear.MAX 10).map ScaleError.isOutOfRange = some true :=
  ⟨by decide, by decide⟩

/-- C6 counterexample: on `try_new(0, 10, 5)` the ratio is 2.5 and
`coordinate_to_domain(1)` returns `0 + trunc(2.5) = 2`, not
`0 + round(2.5) = 3` as the claim states. -/
theorem C6_c2d_spec_cex :
    ((Linear.try_new 0 10 5).toOption.bind fun s => s.coordinate_to_domain 1) = some 2 ∧
    (2 : ℤ) ≠ 0 + rustRound ((5 / 2 : ℚ) * 1) :=
  ⟨by decide, by decide⟩

/-- C7 counterexample: `try_new(7, 7, 6)` succeeds with ratio 0; the first
`next` of `iter()` reaches the all-NaN state, which reproduces itself while
emitting — the sequence never terminates. -/
theorem C7_enumeration_cex :
    ((Linear.try_new 7 7 6).toOption.map (fun s => DomainIter.next (Linear.iter s)))
      = some (some ((7, 0), ⟨F.nan, F.nan, F.nan, F.nan, 6⟩)) ∧
    DomainIter.next ⟨F.nan, F.nan, F.nan, F.nan, 6⟩
      = some ((0, 0), ⟨F.nan, F.nan, F.nan, F.nan, 6⟩) :=
  ⟨by decide, by decide⟩

/-- Witness for C1 at `try_new(0, 1000, 5)` and `v = 100`. -/
theorem C1_roundtrip_witness :
    Linear.try_new 0 1000 5 = .ok ⟨0, 5, 0, 1000, F.fin 250, F.fin 1000⟩ ∧
    (∃ c w, Linear.domain_to_coordinate ⟨0, 5, 0, 1000, F.fin 250, F.fin 1000⟩ 100 = some c ∧
      Linear.coordinate_to_domain ⟨0, 5, 0, 1000, F.fin 250, F.fin 1000⟩ c = some w ∧
      |(w : ℚ) - (100 : ℚ)| ≤ F.q (F.abs (F.fin 250)) / 2 + 1) := by
  have hok : Linear.try_new 0 1000 5 = .ok ⟨0, 5, 0, 1000, F.fin 250, F.fin 1000⟩ := by rfl
  exact ⟨hok,
    C1_roundtrip_within_half_step hok (by decide) (by decide) (by decide)⟩

/-- Witness for C2 at `try_new(0, 10, 5)`: the sixth `next` call ends the
sequence. -/
theorem C2_iter_count_witness :
    Linear.try_new 0 10 5 = .ok ⟨0, 5, 0, 10, F.fin (5 / 2), F.fin 10⟩ ∧
    DomainIter.next (DomainIter.advance^[5]
      (Linear.iter ⟨0, 5, 0, 10, F.fin (5 / 2), F.fin 10⟩)) = none := by
  have hok : Linear.try_new 0 10 5 = .ok ⟨0, 5, 0, 10, F.fin (5 / 2), F.fin 10⟩ := by rfl
  exact ⟨hok, (C2_iter_count hok (by decide) (by decide)).2⟩

/-- Witness for C3 at `try_new(0, 10, 5)` against `try_new(10, 0, 5)` and
`v = 5` (scaled offset 2, no tie). -/
theorem C3_reversed_mirror_witness :
    Linear.try_new 0 10 5 = .ok ⟨0, 5, 0, 10, F.fin (5 / 2), F.fin 10⟩ ∧
    Linear.try_new 10 0 5 = .ok ⟨10, 5, 0, 10, F.fin (-(5 / 2)), F.fin 10⟩ ∧
    ∃ c c2, Linear.domain_to_coordinate ⟨0, 5, 0, 10, F.fin (5 / 2), F.fin 10⟩ 5 = some c ∧
      Linear.domain_to_coordinate ⟨10, 5, 0, 10, F.fin (-(5 / 2)), F.fin 10⟩ 5 = some c2 ∧
      (c2 : ℤ) = ((5 : ℤ) - 1) - (c : ℤ) := by
  have hs : Linear.try_new 0 10 5 = .ok ⟨0, 5, 0, 10, F.fin (5 / 2), F.fin 10⟩ := by rfl
  have ht : Linear.try_new 10 0 5 = .ok ⟨10, 5, 0, 10, F.fin (-(5 / 2)), F.fin 10⟩ := by rfl
  exact ⟨hs, ht,
    C3_reversed_mirror hs ht (by decide) (by decide) (by decide) (by decide) (by decide)⟩

/-- Witness for C5 at the extreme i64-safe endpoints and dimension 10. -/
theorem C5_span_error_kind_witness :
    (5 ≤ 10 ∧ Linear.MIN ≤ min Linear.MIN Linear.MAX ∧
      max Linear.MIN Linear.MAX ≤ Linear.MAX ∧
      Linear.MAX < max Linear.MIN Linear.MAX - min Linear.MIN Linear.MAX) ∧
    ((tryNewError Linear.MIN Linear.MAX 10).map ScaleError.isOutOfRange = some true ∧
     (tryNewError Linear.MIN Linear.MAX 10).map ScaleError.isRangeExceedsMaximum
       = some false) :=
  ⟨⟨by norm_num, by decide, by decide, by decide⟩,
    C5_span_error_kind Linear.MIN Linear.MAX 10 (by norm_num) (by decide) (by decide)
      (by decide)⟩

/-- Witness for C6 at `try_new(0, 10, 5)` and coordinate 2. -/
theorem C6_c2d_spec_witness :
    Linear.try_new 0 10 5 = .ok ⟨0, 5, 0, 10, F.fin (5 / 2), F.fin 10⟩ ∧
    ((5 ≤ 2 → Linear.coordinate_to_domain ⟨0, 5, 0, 10, F.fin (5 / 2), F.fin 10⟩ 2 = none) ∧
     (2 < 5 → Linear.coordinate_to_domain ⟨0, 5, 0, 10, F.fin (5 / 2), F.fin 10⟩ 2
        = some (0 + rustTrunc (F.q (F.fin (5 / 2)) * ((2 : ℕ) : ℚ)))) ∧
     F.q (F.fin (5 / 2)) = ((10 - 0 : ℤ) : ℚ) / ((5 - 1 : ℕ) : ℚ) *
       (if (0 : ℤ) < 10 then 1 else -1)) := by
  have hok : Linear.try_new 0 10 5 = .ok ⟨0, 5, 0, 10, F.fin (5 / 2), F.fin 10⟩ := by rfl
  exact ⟨hok, C6_c2d_spec hok 2⟩

/-- Witness for C7 at `try_new(0, 10, 5)`. -/
theorem C7_enumeration_finite_witness :
    Linear.try_new 0 10 5 = .ok ⟨0, 5, 0, 10, F.fin (5 / 2), F.fin 10⟩ ∧
    ((∃ n, DomainIter.next (DomainIter.advance^[n]
        (Linear.iter ⟨0, 5, 0, 10, F.fin (5 / 2), F.fin 10⟩)) = none) ∧
     ∀ step : ℤ, step ≠ 0 → ∃ n, DomainIter.next (DomainIter.advance^[n]
        (Linear.intervals ⟨0, 5, 0, 10, F.fin (5 / 2), F.fin 10⟩ step)) = none) := by
  have hok : Linear.try_new 0 10 5 = .ok ⟨0, 5, 0, 10, F.fin (5 / 2), F.fin 10⟩ := by rfl
  exact ⟨hok, C7_enumeration_finite hok (by decide) (by decide)⟩

/-- Witness for C9: five labels over dimension 600 — exactly 5 pairs, the last
at coordinate `(600 / 6) * 5 = 500`. -/
theorem C9_ordered_spec_witness :
    (((ScaledSteps.new 600 : ScaledSteps ℕ).ordered [11, 22, 33, 44, 55]).map
        (fun t => ScaledStepsIter.run (ScaledSteps.iter t))
      = some (List.zip
          ((List.range (([11, 22, 33, 44, 55] : List ℕ).take (600 - 1)).length).map
            (fun i => (600 / ((([11, 22, 33, 44, 55] : List ℕ).take (600 - 1)).length + 1))
              * (i + 1)))
          (([11, 22, 33, 44, 55] : List ℕ).take (600 - 1)))) ∧
    ((ScaledSteps.new 600 : ScaledSteps ℕ).ordered [11, 22, 33, 44, 55]).map
        (fun t => ScaledStepsIter.run (ScaledSteps.iter t))
      = some [(100, 11), (200, 22), (300, 33), (400, 44), (500, 55)] :=
  ⟨C9_ordered_spec 600 [11, 22, 33, 44, 55] (by norm_num), by decide⟩

/-- Witness for C10 at `try_new(0, 10, 5)` and `v = 10`: coordinate 4 < 5. -/
theorem C10_d2c_bounded_witness :
    Linear.try_new 0 10 5 = .ok ⟨0, 5, 0, 10, F.fin (5 / 2), F.fin 10⟩ ∧
    Linear.domain_to_coordinate ⟨0, 5, 0, 10, F.fin (5 / 2), F.fin 10⟩ 10 = some 4 ∧
    4 < 5 := by
  have hok : Linear.try_new 0 10 5 = .ok ⟨0, 5, 0, 10, F.fin (5 / 2), F.fin 10⟩ := by rfl
  have hd : Linear.domain_to_coordinate ⟨0, 5, 0, 10, F.fin (5 / 2), F.fin 10⟩ 10
      = some 4 := by decide
  exact ⟨hok, hd, C10_d2c_bounded hok 10 hd⟩

end
